import Mathlib

/-!
Shallow embedding of `src/snntorch/_neurons/funky.py` (class `Funky`, a
first-order leaky integrate-and-fire neuron whose spike threshold moves
randomly each time any spike is fired).

Modelling conventions:
* Tensors are 1-D lists of rationals, one batch row with one value per
  neuron; a tensor's shape is its length.  Elementwise torch arithmetic
  becomes `List.zipWith` / `List.map`, and `torch.zeros_like(x)` becomes
  `List.replicate x.length 0`.  The per-neuron threshold tensor has the
  same length as the membrane tensor.
* `beta` is the scalar decay rate; `self.beta.clamp(0, 1)` is `clamp01`.
* The forward numeric value of the surrogate spike function (ATan and the
  other snntorch surrogates all compute `(x > 0).float()` forward) is
  `heaviside`.
* The draw `torch.normal(mean=0.0, std=self.funkiness, size=self.threshold.shape)`
  is modelled through an explicit standard-normal sample oracle `ν : ℕ → ℚ`
  passed to each forward call: the drawn tensor is elementwise
  `funkiness * ν i`, which has mean 0 and standard deviation `funkiness`
  exactly when `ν` is a standard-normal sample.	 Every theorem that
  quantifies over `ν` therefore holds for every possible draw.
* A Python exception is the `FwdResult.err` constructor; since a raised
  exception leaves the object's already-assigned buffers in place, the
  error constructor carries the neuron state as mutated so far.
* `state_quant` is an optional elementwise quantization hook
  (`False`, i.e. `none`, by default).
-/

attribute [local semireducible] Rat.add Rat.sub Rat.mul Rat.inv

namespace Funky

/-- Reset mechanisms, as selected at construction from the
`reset_mechanism` string: `"subtract"` is `reset_mechanism_val == 0`,
`"zero"` is `1`, `"none"` is `2` (funky.py lines 182-187). -/
inductive ResetMechanism
  | subtract
  | zero
  | noReset
  deriving DecidableEq, Repr

/-- Construction-time configuration of a `Funky` neuron (funky.py lines
146-190).  Flags that only affect gradients (`spike_grad`,
`surrogate_disable`, the `learn_*` flags) are not part of the forward
numeric value and are omitted. -/
structure FunkyConfig where
  beta : ℚ
  funkiness : ℚ
  init_hidden : Bool
  inhibition : Bool
  reset_mechanism : ResetMechanism
  state_quant : Option (ℚ → ℚ)
  output : Bool
  graded_spikes_factor : ℚ
  reset_delay : Bool

/-- Mutable buffers of a `Funky` neuron: the membrane potential `mem`
(funky.py line 194), the threshold buffer owned by the base class, and
the reset indicator `self.reset` assigned each forward call (line 217). -/
structure FunkyState where
  mem : List ℚ
  threshold : List ℚ
  reset : List ℚ
  deriving DecidableEq, Repr

/-- Modelled from the spec: the forward numeric value of the surrogate
spike function, which is "exact 0/1 during the forward numeric value"
(the function object itself lives outside src/). -/
def heaviside (x : ℚ) : ℚ := if 0 < x then 1 else 0

/-- Scalar `self.beta.clamp(0, 1)` (funky.py line 269). -/
def clamp01 (b : ℚ) : ℚ := min (max b 0) 1

/-- Elementwise quantization hook: `self.state_quant(mem)` when a
quantization function is configured, identity otherwise. -/
def applyQuant (q : Option (ℚ → ℚ)) (l : List ℚ) : List ℚ :=
  match q with
  | some f => l.map f
  | none => l

/-- Indexed elementwise map, used to model a fresh tensor of the
threshold's shape combined elementwise with the threshold. -/
def mapWithIdx (f : ℕ → ℚ → ℚ) : ℕ → List ℚ → List ℚ
  | _, [] => []
  | k, t :: ts => f k t :: mapWithIdx f (k + 1) ts

/-- Modelled from the spec: the base class's threshold-comparison helper
`mem_reset` (called at funky.py line 217 but defined in the base `LIF`
class, which is not under src/): the "reset indicator for the previous
step's membrane value (1 if it exceeded threshold, else 0)". -/
def mem_reset (st : FunkyState) (mem : List ℚ) : List ℚ :=
  List.zipWith (fun m t => heaviside (m - t)) mem st.threshold

/-- Index of the first maximum of a list (model of `torch.argmax` on one
batch row). -/
def argmaxIdx (l : List ℚ) : ℕ :=
  (List.range l.length).foldl
    (fun best i => if l.getD best 0 < l.getD i 0 then i else best) 0

/-- Modelled from the spec: the base class's winner-take-all helper
`fire_inhibition` (called at funky.py line 224 but defined in the base
`LIF` class, which is not under src/): "only the single neuron with the
highest membrane value in each batch element may spike"; it is inherited
base-class code, so it never perturbs the threshold.  One batch row is
modelled. -/
def fire_inhibition (st : FunkyState) (mem : List ℚ) : List ℚ :=
  let mem_shift := List.zipWith (· - ·) mem st.threshold
  let j := argmaxIdx mem_shift
  mapWithIdx (fun i s => if i = j then heaviside s else 0) 0 mem_shift

/-- `Funky.fire` (funky.py lines 249-265): spikes from the threshold
crossing of `mem`, scaled by the graded-spikes factor; if any spike is
nonzero the threshold buffer is perturbed in place, every element
receiving an independent normal draw of mean 0 and standard deviation
`funkiness`.  Returns the spikes and the updated state. -/
def fire (cfg : FunkyConfig) (st : FunkyState) (mem : List ℚ) (ν : ℕ → ℚ) :
    List ℚ × FunkyState :=
  let mem' := applyQuant cfg.state_quant mem
  let mem_shift := List.zipWith (· - ·) mem' st.threshold
  let spk := (mem_shift.map heaviside).map (· * cfg.graded_spikes_factor)
  if spk.any (fun x => decide (x ≠ 0)) then
    (spk, { st with
      threshold := mapWithIdx (fun i t => t + cfg.funkiness * ν i) 0 st.threshold })
  else
    (spk, st)

/-- `Funky._base_state_function` (funky.py lines 268-270):
`self.beta.clamp(0, 1) * self.mem + input_`. -/
def _base_state_function (cfg : FunkyConfig) (st : FunkyState) (input_ : List ℚ) :
    List ℚ :=
  List.zipWith (· + ·) (st.mem.map (fun m => clamp01 cfg.beta * m)) input_

/-- `Funky._base_sub` (funky.py lines 272-273):
`self._base_state_function(input_) - self.reset * self.threshold`. -/
def _base_sub (cfg : FunkyConfig) (st : FunkyState) (input_ : List ℚ) :
    List ℚ × FunkyState :=
  (List.zipWith (· - ·) (_base_state_function cfg st input_)
      (List.zipWith (· * ·) st.reset st.threshold),
    st)

/-- `Funky._base_zero` (funky.py lines 275-277): first assigns
`self.mem = (1 - self.reset) * self.mem`, then returns
`self._base_state_function(input_)`. -/
def _base_zero (cfg : FunkyConfig) (st : FunkyState) (input_ : List ℚ) :
    List ℚ × FunkyState :=
  let st' := { st with
    mem := List.zipWith (fun r m => (1 - r) * m) st.reset st.mem }
  (_base_state_function cfg st' input_, st')

/-- `Funky._base_int` (funky.py lines 279-280). -/
def _base_int (cfg : FunkyConfig) (st : FunkyState) (input_ : List ℚ) :
    List ℚ × FunkyState :=
  (_base_state_function cfg st input_, st)

/-- The state function selected at construction (funky.py lines 182-187),
dispatched on the reset mechanism. -/
def state_function (cfg : FunkyConfig) (st : FunkyState) (input_ : List ℚ) :
    List ℚ × FunkyState :=
  match cfg.reset_mechanism with
  | .subtract => _base_sub cfg st input_
  | .zero => _base_zero cfg st input_
  | .noReset => _base_int cfg st input_

/-- The two exceptions a forward call can raise: the explicit `TypeError`
of funky.py lines 210-212, and Python's `UnboundLocalError` for reading
`threshold_before_spike` when it was never assigned (line 236 reached
through the inhibition branch of lines 223-226). -/
inductive FunkyError
  | typeError
  | unboundLocal
  deriving DecidableEq, Repr

/-- What a successful forward call returns (funky.py lines 240-245):
the spike tensor, and the membrane tensor unless the neuron owns its
hidden state and is not an output layer. -/
structure FunkyReturn where
  spk : List ℚ
  memOut : Option (List ℚ)
  deriving DecidableEq, Repr

/-- Outcome of one forward call: a Python return, or a raised exception.
Both carry the neuron state as it stands when control leaves the method,
because buffers assigned before a raise keep their new values. -/
inductive FwdResult
  | ok (ret : FunkyReturn) (st : FunkyState)
  | err (e : FunkyError) (st : FunkyState)
  deriving DecidableEq, Repr

/-- The post-state carried by either outcome. -/
def FwdResult.state : FwdResult → FunkyState
  | .ok _ st => st
  | .err _ st => st

/-- The return statements of funky.py lines 240-245. -/
def mkReturn (cfg : FunkyConfig) (spk : List ℚ) (st : FunkyState) : FwdResult :=
  if cfg.output then .ok ⟨spk, some st.mem⟩ st
  else if cfg.init_hidden then .ok ⟨spk, none⟩ st
  else .ok ⟨spk, some st.mem⟩ st

/-- Funky.forward lines 214-221: lazy shape binding (the membrane is
reinitialized to zeros of the input's shape on mismatch), the reset
indicator of the previous membrane, the state-function update, and the
optional quantization of the new membrane. -/
def preSpike (cfg : FunkyConfig) (st1 : FunkyState) (input_ : List ℚ) :
    FunkyState :=
  let st2 :=
    if st1.mem.length ≠ input_.length then
      { st1 with mem := List.replicate input_.length 0 }
    else st1
  let st3 := { st2 with reset := mem_reset st2 st2.mem }
  let p := state_function cfg st3 input_
  let st4 := { p.2 with mem := p.1 }
  { st4 with mem := applyQuant cfg.state_quant st4.mem }

/-- Funky.forward lines 223-229: the inhibition branch calls the
inherited `fire_inhibition` and leaves the local name
`threshold_before_spike` unassigned; the other branch assigns it and
calls the overridden `fire`.  The assignment
`threshold_before_spike = self.threshold` binds the local name to the
threshold buffer object itself, and `fire`'s `+=` mutates that buffer
in place, so a later read through the local name yields the buffer's
current (possibly perturbed) contents — the model therefore records
only whether the name is bound, and the read site uses the state's
threshold. -/
def fireStep (cfg : FunkyConfig) (st : FunkyState) (ν : ℕ → ℚ) :
    List ℚ × FunkyState × Bool :=
  if cfg.inhibition then
    (fire_inhibition st st.mem, st, false)
  else
    let r := fire cfg st st.mem ν
    (r.1, r.2, true)

/-- Funky.forward lines 231-245: the immediate-reset compensation when
`reset_delay` is off (`do_reset = spk / graded_spikes_factor - reset`),
which for the subtract mechanism reads the local
`threshold_before_spike` — raising `UnboundLocalError` when it was never
assigned, and otherwise yielding the threshold buffer's current
contents, since the local name aliases the buffer that `fire` mutates in
place — and the final return statements. -/
def postFire (cfg : FunkyConfig) (spk : List ℚ) (st : FunkyState)
    (thrBound : Bool) : FwdResult :=
  if cfg.reset_delay then mkReturn cfg spk st
  else
    let do_reset :=
      List.zipWith (· - ·) (spk.map (· / cfg.graded_spikes_factor)) st.reset
    match cfg.reset_mechanism with
    | .subtract =>
      if thrBound then
        mkReturn cfg spk
          { st with
            mem := List.zipWith (· - ·) st.mem
              (List.zipWith (· * ·) do_reset st.threshold) }
      else .err .unboundLocal st
    | .zero =>
      mkReturn cfg spk
        { st with
          mem := List.zipWith (· - ·) st.mem
            (List.zipWith (· * ·) do_reset st.mem) }
    | .noReset => mkReturn cfg spk st

/-- `Funky.forward` (funky.py lines 204-245).  `memArg` is the optional
explicit membrane argument; note line 207 overwrites `self.mem` with it
before the `init_hidden` check of lines 209-212 can raise. -/
def forward (cfg : FunkyConfig) (st0 : FunkyState) (input_ : List ℚ)
    (memArg : Option (List ℚ)) (ν : ℕ → ℚ) : FwdResult :=
  let st1 :=
    match memArg with
    | some m => { st0 with mem := m }
    | none => st0
  if cfg.init_hidden && memArg.isSome then .err .typeError st1
  else
    let st5 := preSpike cfg st1 input_
    let q := fireStep cfg st5 ν
    postFire cfg q.1 q.2.1 q.2.2

/-- Modelled from the spec: the fire step of the "unmodified base leaky
integrate-and-fire neuron" (the base `Leaky` class is not under src/);
identical threshold crossing and graded scaling, but "threshold never
drifts" — no perturbation. -/
def leakyFire (cfg : FunkyConfig) (st : FunkyState) (mem : List ℚ) : List ℚ :=
  let mem' := applyQuant cfg.state_quant mem
  let mem_shift := List.zipWith (· - ·) mem' st.threshold
  (mem_shift.map heaviside).map (· * cfg.graded_spikes_factor)

/-- Modelled from the spec: the spike step of the base leaky neuron.  Per
the spec the Funky class "overrid[es] only the spike-generation step and
add[s] a random-threshold-perturbation behavior", so the base neuron runs
the same pipeline with the non-perturbing fire and reads its own (never
drifting) threshold in the immediate-reset compensation — there the base
class uses `self.threshold` directly, so no name can be unbound. -/
def leakyFireStep (cfg : FunkyConfig) (st : FunkyState) :
    List ℚ × FunkyState × Bool :=
  if cfg.inhibition then
    (fire_inhibition st st.mem, st, true)
  else
    (leakyFire cfg st st.mem, st, true)

/-- Modelled from the spec: the forward call of the unmodified base leaky
integrate-and-fire neuron, same pipeline as `Funky.forward` with the
non-perturbing spike step. -/
def leakyForward (cfg : FunkyConfig) (st0 : FunkyState) (input_ : List ℚ)
    (memArg : Option (List ℚ)) : FwdResult :=
  let st1 :=
    match memArg with
    | some m => { st0 with mem := m }
    | none => st0
  if cfg.init_hidden && memArg.isSome then .err .typeError st1
  else
    let st5 := preSpike cfg st1 input_
    let q := leakyFireStep cfg st5
    postFire cfg q.1 q.2.1 q.2.2

/-- A stateful sequence of Funky forward calls (no explicit membrane
argument), each with its own noise sample; a raised exception aborts the
sequence, keeping the state the exception left behind. -/
def funkyRun (cfg : FunkyConfig) :
    FunkyState → List (List ℚ × (ℕ → ℚ)) → List FunkyReturn × FunkyState
  | st, [] => ([], st)
  | st, (inp, ν) :: rest =>
    match forward cfg st inp none ν with
    | .ok ret st' =>
      let p := funkyRun cfg st' rest
      (ret :: p.1, p.2)
    | .err _ st' => ([], st')

/-- The same sequence harness for the base leaky neuron. -/
def leakyRun (cfg : FunkyConfig) :
    FunkyState → List (List ℚ) → List FunkyReturn × FunkyState
  | st, [] => ([], st)
  | st, inp :: rest =>
    match leakyForward cfg st inp none with
    | .ok ret st' =>
      let p := leakyRun cfg st' rest
      (ret :: p.1, p.2)
    | .err _ st' => ([], st')

/-- A plain configuration used by concrete evaluations: decay 1/2,
threshold drift disabled, subtract reset, delayed reset, no hidden-state
ownership. -/
def cfgA : FunkyConfig :=
  { beta := 1 / 2
    funkiness := 0
    init_hidden := false
    inhibition := false
    reset_mechanism := .subtract
    state_quant := none
    output := false
    graded_spikes_factor := 1
    reset_delay := true }

/-- A one-neuron start state: empty-shaped membrane like a fresh neuron
after `_init_mem`, threshold 1. -/
def stA : FunkyState := { mem := [0], threshold := [1], reset := [] }

/-! Helper lemmas about the list primitives. -/

lemma mapWithIdx_length (f : ℕ → ℚ → ℚ) :
    ∀ (k : ℕ) (l : List ℚ), (mapWithIdx f k l).length = l.length := by
  intro k l
  induction l generalizing k with
  | nil => rfl
  | cons t ts ih => simp [mapWithIdx, ih]

lemma mapWithIdx_id (f : ℕ → ℚ → ℚ) (hf : ∀ i t, f i t = t) :
    ∀ (k : ℕ) (l : List ℚ), mapWithIdx f k l = l := by
  intro k l
  induction l generalizing k with
  | nil => rfl
  | cons t ts ih => simp [mapWithIdx, hf, ih]

lemma getD_zipWith (f : ℚ → ℚ → ℚ) :
    ∀ (l₁ l₂ : List ℚ) (i : ℕ), i < l₁.length → i < l₂.length →
      (List.zipWith f l₁ l₂).getD i 0 = f (l₁.getD i 0) (l₂.getD i 0) := by
  intro l₁
  induction l₁ with
  | nil => intro l₂ i h₁ _; simp at h₁
  | cons a as ih =>
    intro l₂ i h₁ h₂
    cases l₂ with
    | nil => simp at h₂
    | cons b bs =>
      cases i with
      | zero => simp
      | succ j =>
        simp only [List.zipWith_cons_cons, List.getD_cons_succ]
        exact ih bs j (by simpa using h₁) (by simpa using h₂)

lemma getD_map (f : ℚ → ℚ) :
    ∀ (l : List ℚ) (i : ℕ), i < l.length →
      (l.map f).getD i 0 = f (l.getD i 0) := by
  intro l
  induction l with
  | nil => intro i h; simp at h
  | cons a as ih =>
    intro i h
    cases i with
    | zero => simp
    | succ j =>
      simp only [List.map_cons, List.getD_cons_succ]
      exact ih j (by simpa using h)

lemma getD_mapWithIdx (f : ℕ → ℚ → ℚ) :
    ∀ (l : List ℚ) (k i : ℕ), i < l.length →
      (mapWithIdx f k l).getD i 0 = f (k + i) (l.getD i 0) := by
  intro l
  induction l with
  | nil => intro k i h; simp at h
  | cons a as ih =>
    intro k i h
    cases i with
    | zero => simp [mapWithIdx]
    | succ j =>
      simp only [mapWithIdx, List.getD_cons_succ]
      rw [ih (k + 1) j (by simpa using h)]
      ring_nf

lemma applyQuant_length (q : Option (ℚ → ℚ)) (l : List ℚ) :
    (applyQuant q l).length = l.length := by
  cases q <;> simp [applyQuant]

lemma applyQuant_none (l : List ℚ) : applyQuant none l = l := rfl

/-! Helper lemmas about the pipeline stages. -/

lemma mkReturn_eq (cfg : FunkyConfig) (spk : List ℚ) (st : FunkyState) :
    mkReturn cfg spk st =
      .ok ⟨spk, if cfg.output then some st.mem
        else if cfg.init_hidden then none else some st.mem⟩ st := by
  unfold mkReturn
  by_cases ho : cfg.output <;> by_cases hh : cfg.init_hidden <;> simp [ho, hh]

lemma mkReturn_ok_inv {cfg spk st ret st'} (h : mkReturn cfg spk st = .ok ret st') :
    ret.spk = spk ∧ st' = st := by
  rw [mkReturn_eq] at h
  injection h with h1 h2
  exact ⟨by rw [← h1], h2.symm⟩

lemma postFire_state_threshold (cfg : FunkyConfig) (spk : List ℚ)
    (st : FunkyState) (tb : Bool) :
    (postFire cfg spk st tb).state.threshold = st.threshold := by
  unfold postFire
  by_cases hd : cfg.reset_delay
  · simp [hd, mkReturn_eq, FwdResult.state]
  · cases hm : cfg.reset_mechanism <;>
      cases tb <;> simp [hd, hm, mkReturn_eq, FwdResult.state]

lemma postFire_ok_inv {cfg spk st tb ret st'}
    (h : postFire cfg spk st tb = .ok ret st') :
    ret.spk = spk ∧ st'.threshold = st.threshold ∧ st'.reset = st.reset ∧
      (cfg.reset_delay = true → st' = st) := by
  unfold postFire at h
  by_cases hd : cfg.reset_delay
  · simp only [hd, if_true] at h
    obtain ⟨h1, h2⟩ := mkReturn_ok_inv h
    exact ⟨h1, by rw [h2], by rw [h2], fun _ => h2⟩
  · simp only [hd, if_false, Bool.false_eq_true] at h
    cases hm : cfg.reset_mechanism <;> rw [hm] at h
    · cases tb with
      | false => cases h
      | true =>
        simp only [if_true] at h
        obtain ⟨h1, h2⟩ := mkReturn_ok_inv h
        refine ⟨h1, by rw [h2], by rw [h2], fun hc => ?_⟩
        rw [hc] at hd; exact absurd rfl hd
    · obtain ⟨h1, h2⟩ := mkReturn_ok_inv h
      refine ⟨h1, by rw [h2], by rw [h2], fun hc => ?_⟩
      rw [hc] at hd; exact absurd rfl hd
    · obtain ⟨h1, h2⟩ := mkReturn_ok_inv h
      refine ⟨h1, by rw [h2], by rw [h2], fun hc => ?_⟩
      rw [hc] at hd; exact absurd rfl hd

lemma fire_spk_eq (cfg : FunkyConfig) (st : FunkyState) (mem : List ℚ)
    (ν : ℕ → ℚ) : (fire cfg st mem ν).1 = leakyFire cfg st mem := by
  unfold fire leakyFire
  dsimp only
  split <;> rfl

lemma fire_mem_eq (cfg : FunkyConfig) (st : FunkyState) (mem : List ℚ)
    (ν : ℕ → ℚ) : (fire cfg st mem ν).2.mem = st.mem := by
  unfold fire
  dsimp only
  split <;> rfl

lemma fire_reset_eq (cfg : FunkyConfig) (st : FunkyState) (mem : List ℚ)
    (ν : ℕ → ℚ) : (fire cfg st mem ν).2.reset = st.reset := by
  unfold fire
  dsimp only
  split <;> rfl

lemma fire_threshold_length (cfg : FunkyConfig) (st : FunkyState)
    (mem : List ℚ) (ν : ℕ → ℚ) :
    (fire cfg st mem ν).2.threshold.length = st.threshold.length := by
  unfold fire
  dsimp only
  split
  · simp [mapWithIdx_length]
  · rfl

lemma fire_state_of_spike {cfg st mem ν}
    (h : ∃ x ∈ (fire cfg st mem ν).1, x ≠ 0) :
    (fire cfg st mem ν).2 =
      { st with threshold :=
          mapWithIdx (fun i t => t + cfg.funkiness * ν i) 0 st.threshold } := by
  rw [fire_spk_eq] at h
  unfold leakyFire at h
  unfold fire
  dsimp only at h ⊢
  rw [if_pos]
  rw [List.any_eq_true]
  simpa only [decide_eq_true_eq] using h

lemma fire_state_of_no_spike {cfg st mem ν}
    (h : ∀ x ∈ (fire cfg st mem ν).1, x = 0) :
    (fire cfg st mem ν).2 = st := by
  rw [fire_spk_eq] at h
  unfold leakyFire at h
  unfold fire
  dsimp only at h ⊢
  rw [if_neg]
  rw [List.any_eq_true]
  simp only [decide_eq_true_eq, not_exists, not_and]
  intro x hx hne
  exact hne (h x hx)

lemma fire_funkiness_zero {cfg : FunkyConfig} (st : FunkyState) (mem : List ℚ)
    (ν : ℕ → ℚ) (h : cfg.funkiness = 0) :
    fire cfg st mem ν = (leakyFire cfg st mem, st) := by
  unfold fire leakyFire
  dsimp only
  rw [h]
  rw [mapWithIdx_id (fun i t => t + 0 * ν i) (by intro i t; ring)]
  split <;> rfl

lemma state_function_threshold (cfg : FunkyConfig) (st : FunkyState)
    (input_ : List ℚ) :
    (state_function cfg st input_).2.threshold = st.threshold := by
  cases hm : cfg.reset_mechanism <;>
    simp [state_function, _base_sub, _base_zero, _base_int, hm]

lemma state_function_reset (cfg : FunkyConfig) (st : FunkyState)
    (input_ : List ℚ) :
    (state_function cfg st input_).2.reset = st.reset := by
  cases hm : cfg.reset_mechanism <;>
    simp [state_function, _base_sub, _base_zero, _base_int, hm]

lemma preSpike_threshold (cfg : FunkyConfig) (st1 : FunkyState)
    (input_ : List ℚ) :
    (preSpike cfg st1 input_).threshold = st1.threshold := by
  unfold preSpike
  dsimp only
  rw [state_function_threshold]
  dsimp only
  split <;> rfl

lemma postFire_tb_irrel (cfg : FunkyConfig) (spk : List ℚ) (st : FunkyState)
    (tb tb' : Bool)
    (h : cfg.reset_delay = true ∨ cfg.reset_mechanism ≠ ResetMechanism.subtract) :
    postFire cfg spk st tb = postFire cfg spk st tb' := by
  unfold postFire
  by_cases hd : cfg.reset_delay
  · rw [if_pos hd, if_pos hd]
  · rw [if_neg hd, if_neg hd]
    dsimp only
    cases hmv : cfg.reset_mechanism
    · rcases h with h | h
      · exact absurd h hd
      · exact absurd hmv h
    · rfl
    · rfl

lemma postFire_isOk (cfg : FunkyConfig) (spk : List ℚ) (st : FunkyState)
    (tb : Bool)
    (h : cfg.reset_delay = true ∨ cfg.reset_mechanism ≠ ResetMechanism.subtract ∨
      tb = true) :
    ∃ ret st', postFire cfg spk st tb = .ok ret st' := by
  unfold postFire
  by_cases hd : cfg.reset_delay
  · rw [if_pos hd]
    exact ⟨_, _, mkReturn_eq cfg spk st⟩
  · rw [if_neg hd]
    dsimp only
    cases hmv : cfg.reset_mechanism
    · cases tb with
      | false =>
        rcases h with h | h | h
        · exact absurd h hd
        · exact absurd hmv h
        · cases h
      | true => exact ⟨_, _, mkReturn_eq cfg spk _⟩
    · exact ⟨_, _, mkReturn_eq cfg spk _⟩
    · exact ⟨_, _, mkReturn_eq cfg spk st⟩

lemma fireStep_inhibition {cfg : FunkyConfig} (st : FunkyState) (ν : ℕ → ℚ)
    (hi : cfg.inhibition = true) :
    fireStep cfg st ν = (fire_inhibition st st.mem, st, false) := by
  unfold fireStep
  rw [if_pos hi]

lemma fireStep_no_inhibition {cfg : FunkyConfig} (st : FunkyState) (ν : ℕ → ℚ)
    (hi : cfg.inhibition = false) :
    fireStep cfg st ν =
      ((fire cfg st st.mem ν).1, (fire cfg st st.mem ν).2, true) := by
  unfold fireStep
  rw [if_neg (by simp [hi])]

lemma leakyFireStep_inhibition {cfg : FunkyConfig} (st : FunkyState)
    (hi : cfg.inhibition = true) :
    leakyFireStep cfg st = (fire_inhibition st st.mem, st, true) := by
  unfold leakyFireStep
  rw [if_pos hi]

lemma leakyFireStep_no_inhibition {cfg : FunkyConfig} (st : FunkyState)
    (hi : cfg.inhibition = false) :
    leakyFireStep cfg st = (leakyFire cfg st st.mem, st, true) := by
  unfold leakyFireStep
  rw [if_neg (by simp [hi])]

lemma forward_eq_leaky (cfg : FunkyConfig) (st : FunkyState) (input_ : List ℚ)
    (memArg : Option (List ℚ)) (ν : ℕ → ℚ) (hfz : cfg.funkiness = 0)
    (hgood : ¬(cfg.inhibition = true ∧ cfg.reset_delay = false ∧
      cfg.reset_mechanism = ResetMechanism.subtract)) :
    forward cfg st input_ memArg ν = leakyForward cfg st input_ memArg := by
  unfold forward leakyForward
  dsimp only
  by_cases hw : (cfg.init_hidden && memArg.isSome) = true
  · rw [if_pos hw, if_pos hw]
  · rw [if_neg hw, if_neg hw]
    by_cases hi : cfg.inhibition
    · rw [fireStep_inhibition _ _ hi, leakyFireStep_inhibition _ hi]
      dsimp only
      apply postFire_tb_irrel
      by_cases hd : cfg.reset_delay
      · exact Or.inl hd
      · exact Or.inr fun hm =>
          hgood ⟨hi, by simpa using hd, hm⟩
    · rw [fireStep_no_inhibition _ _ (by simpa using hi),
        leakyFireStep_no_inhibition _ (by simpa using hi),
        fire_funkiness_zero _ _ _ hfz]

lemma leakyForward_threshold (cfg : FunkyConfig) (st : FunkyState)
    (input_ : List ℚ) (memArg : Option (List ℚ)) :
    (leakyForward cfg st input_ memArg).state.threshold = st.threshold := by
  unfold leakyForward
  dsimp only
  by_cases hw : (cfg.init_hidden && memArg.isSome) = true
  · rw [if_pos hw]
    cases memArg <;> rfl
  · rw [if_neg hw]
    rw [postFire_state_threshold]
    by_cases hi : cfg.inhibition
    · rw [leakyFireStep_inhibition _ hi]
      rw [preSpike_threshold]
      cases memArg <;> rfl
    · rw [leakyFireStep_no_inhibition _ (by simpa using hi)]
      rw [preSpike_threshold]
      cases memArg <;> rfl

lemma forward_isOk (cfg : FunkyConfig) (st : FunkyState) (input_ : List ℚ)
    (memArg : Option (List ℚ)) (ν : ℕ → ℚ)
    (h1 : cfg.init_hidden = false ∨ memArg = none)
    (h2 : ¬(cfg.inhibition = true ∧ cfg.reset_delay = false ∧
      cfg.reset_mechanism = ResetMechanism.subtract)) :
    ∃ ret st', forward cfg st input_ memArg ν = .ok ret st' := by
  unfold forward
  dsimp only
  have hw : ¬((cfg.init_hidden && memArg.isSome) = true) := by
    rcases h1 with h | h <;> simp [h]
  rw [if_neg hw]
  by_cases hi : cfg.inhibition
  · rw [fireStep_inhibition _ _ hi]
    apply postFire_isOk
    by_cases hd : cfg.reset_delay
    · exact Or.inl hd
    · exact Or.inr (Or.inl fun hm => h2 ⟨hi, by simpa using hd, hm⟩)
  · rw [fireStep_no_inhibition _ _ (by simpa using hi)]
    exact postFire_isOk _ _ _ _ (Or.inr (Or.inr (by simp)))

lemma leakyRun_threshold (cfg : FunkyConfig) :
    ∀ (st : FunkyState) (l : List (List ℚ)),
      (leakyRun cfg st l).2.threshold = st.threshold := by
  intro st l
  induction l generalizing st with
  | nil => rfl
  | cons inp rest ih =>
    have hthr := leakyForward_threshold cfg st inp none
    simp only [leakyRun]
    cases h : leakyForward cfg st inp none with
    | ok ret st' =>
      rw [h] at hthr
      dsimp only [FwdResult.state] at hthr
      dsimp only
      rw [ih st']
      exact hthr
    | err e st' =>
      rw [h] at hthr
      exact hthr

/-- Variant configuration triggering the unbound-local path: inhibition
with immediate reset under the subtract mechanism. -/
def cfgBad : FunkyConfig := { cfgA with inhibition := true, reset_delay := false }

/-- Variant configuration owning its hidden state. -/
def cfgH : FunkyConfig := { cfgA with init_hidden := true }

example :
    forward cfgA stA [5] none (fun _ => 1) =
      .ok { spk := [1], memOut := some [5] }
        { mem := [5], threshold := [1], reset := [0] } := by decide

example :
    forward { cfgA with funkiness := 1 } stA [5] none (fun _ => 1) =
      .ok { spk := [1], memOut := some [5] }
        { mem := [5], threshold := [2], reset := [0] } := by decide

example :
    forward { cfgA with inhibition := true, reset_delay := false } stA [0]
        none (fun _ => 0) =
      .err .unboundLocal { mem := [0], threshold := [1], reset := [0] } := by
  decide

lemma fireStep_mem (cfg : FunkyConfig) (st : FunkyState) (ν : ℕ → ℚ) :
    (fireStep cfg st ν).2.1.mem = st.mem := by
  unfold fireStep
  dsimp only
  split
  · rfl
  · exact fire_mem_eq cfg st st.mem ν

lemma preSpike_mem_subtract (cfg : FunkyConfig) (st : FunkyState)
    (input_ : List ℚ)
    (hm : cfg.reset_mechanism = ResetMechanism.subtract)
    (hq : cfg.state_quant = none)
    (hlm : st.mem.length = input_.length) :
    (preSpike cfg st input_).mem =
      List.zipWith (· - ·)
        (List.zipWith (· + ·)
          (st.mem.map (fun m => clamp01 cfg.beta * m)) input_)
        (List.zipWith (· * ·)
          (List.zipWith (fun m t => heaviside (m - t)) st.mem st.threshold)
          st.threshold) := by
  unfold preSpike
  dsimp only
  rw [if_neg (by simp [hlm])]
  rw [hq]
  unfold state_function
  rw [hm]
  dsimp only [_base_sub, _base_state_function, mem_reset, applyQuant]

lemma preSpike_mem_zero (cfg : FunkyConfig) (st : FunkyState)
    (input_ : List ℚ)
    (hm : cfg.reset_mechanism = ResetMechanism.zero)
    (hq : cfg.state_quant = none)
    (hlm : st.mem.length = input_.length) :
    (preSpike cfg st input_).mem =
      List.zipWith (· + ·)
        ((List.zipWith (fun r m => (1 - r) * m)
            (List.zipWith (fun m t => heaviside (m - t)) st.mem st.threshold)
            st.mem).map (fun m => clamp01 cfg.beta * m))
        input_ := by
  unfold preSpike
  dsimp only
  rw [if_neg (by simp [hlm])]
  rw [hq]
  unfold state_function
  rw [hm]
  dsimp only [_base_zero, _base_state_function, mem_reset, applyQuant]

lemma fire_inhibition_length (st : FunkyState) (mem : List ℚ) :
    (fire_inhibition st mem).length = min mem.length st.threshold.length := by
  unfold fire_inhibition
  dsimp only
  rw [mapWithIdx_length]
  simp [List.length_zipWith]

lemma fire_spk_length (cfg : FunkyConfig) (st : FunkyState) (mem : List ℚ)
    (ν : ℕ → ℚ) :
    (fire cfg st mem ν).1.length = min mem.length st.threshold.length := by
  rw [fire_spk_eq]
  unfold leakyFire
  dsimp only
  simp [List.length_zipWith, applyQuant_length]

lemma state_function_lengths (cfg : FunkyConfig) (st : FunkyState)
    (input_ : List ℚ) (hm : st.mem.length = input_.length)
    (hr : st.reset.length = input_.length)
    (hθ : st.threshold.length = input_.length) :
    (state_function cfg st input_).1.length = input_.length ∧
    (state_function cfg st input_).2.mem.length = input_.length := by
  cases hmv : cfg.reset_mechanism <;>
    simp [state_function, _base_sub, _base_zero, _base_int,
      _base_state_function, hmv, List.length_zipWith, List.length_map,
      hm, hr, hθ]

lemma preSpike_lengths (cfg : FunkyConfig) (st1 : FunkyState)
    (input_ : List ℚ) (hθ : st1.threshold.length = input_.length) :
    (preSpike cfg st1 input_).mem.length = input_.length ∧
    (preSpike cfg st1 input_).reset.length = input_.length := by
  unfold preSpike
  dsimp only
  by_cases hc : st1.mem.length ≠ input_.length
  · rw [if_pos hc]
    dsimp only
    constructor
    · rw [applyQuant_length]
      exact (state_function_lengths cfg _ input_ (by simp)
        (by simp [mem_reset, List.length_zipWith, hθ]) (by simpa using hθ)).1
    · rw [state_function_reset]
      dsimp only
      simp [mem_reset, List.length_zipWith, hθ]
  · push_neg at hc
    rw [if_neg (by simp [hc])]
    constructor
    · rw [applyQuant_length]
      exact (state_function_lengths cfg _ input_ (by simpa using hc)
        (by simp [mem_reset, List.length_zipWith, hc, hθ]) (by simpa using hθ)).1
    · rw [state_function_reset]
      dsimp only
      simp [mem_reset, List.length_zipWith, hc, hθ]

lemma postFire_ok_mem_length {cfg : FunkyConfig} {spk : List ℚ}
    {st : FunkyState} {tb : Bool} {ret : FunkyReturn}
    {st' : FunkyState} (n : ℕ)
    (h : postFire cfg spk st tb = .ok ret st')
    (hs : spk.length = n) (hm : st.mem.length = n) (hr : st.reset.length = n)
    (ht : st.threshold.length = n) :
    st'.mem.length = n := by
  unfold postFire at h
  by_cases hd : cfg.reset_delay
  · rw [if_pos hd] at h
    obtain ⟨-, h2⟩ := mkReturn_ok_inv h
    rw [h2]
    exact hm
  · rw [if_neg hd] at h
    dsimp only at h
    cases hmv : cfg.reset_mechanism <;> rw [hmv] at h <;> dsimp only at h
    · cases tb with
      | false => cases h
      | true =>
        simp only [if_true] at h
        obtain ⟨-, h2⟩ := mkReturn_ok_inv h
        rw [h2]
        simp [List.length_zipWith, List.length_map, hs, hm, hr, ht]
    · obtain ⟨-, h2⟩ := mkReturn_ok_inv h
      rw [h2]
      simp [List.length_zipWith, List.length_map, hs, hm, hr]
    · obtain ⟨-, h2⟩ := mkReturn_ok_inv h
      rw [h2]
      exact hm

lemma preSpike_reinit (cfg : FunkyConfig) (st : FunkyState) (input_ : List ℚ)
    (hne : st.mem.length ≠ input_.length) :
    preSpike cfg st input_ =
      preSpike cfg { st with mem := List.replicate input_.length 0 } input_ := by
  unfold preSpike
  dsimp only
  rw [if_pos hne, if_neg (by simp)]

lemma preSpike_reset_eq (cfg : FunkyConfig) (st : FunkyState)
    (input_ : List ℚ) (hlm : st.mem.length = input_.length) :
    (preSpike cfg st input_).reset =
      List.zipWith (fun m t => heaviside (m - t)) st.mem st.threshold := by
  unfold preSpike
  dsimp only
  rw [state_function_reset]
  dsimp only
  rw [if_neg (by simp [hlm])]
  rfl

/-! Claim theorems. -/

/-- C1, amended: with `funkiness = 0` a Funky neuron produces, on every
input sequence, exactly the output sequence (spikes and membrane values)
of the unmodified base leaky neuron with the same configuration, and its
threshold tensor never changes across forward calls — except in the
configuration `inhibition = True`, `reset_delay = False`,
`reset_mechanism = "subtract"`, where Funky's forward raises
`UnboundLocalError` while the base neuron succeeds. -/
theorem funkiness_zero_refines_leaky (cfg : FunkyConfig) (st : FunkyState)
    (hfz : cfg.funkiness = 0)
    (hgood : ¬(cfg.inhibition = true ∧ cfg.reset_delay = false ∧
      cfg.reset_mechanism = ResetMechanism.subtract))
    (seq : List (List ℚ × (ℕ → ℚ))) :
    funkyRun cfg st seq = leakyRun cfg st (seq.map Prod.fst) ∧
    (funkyRun cfg st seq).2.threshold = st.threshold := by
  have hrun : ∀ (st : FunkyState) (seq : List (List ℚ × (ℕ → ℚ))),
      funkyRun cfg st seq = leakyRun cfg st (seq.map Prod.fst) := by
    intro st seq
    induction seq generalizing st with
    | nil => rfl
    | cons p rest ih =>
      obtain ⟨inp, ν⟩ := p
      simp only [funkyRun, leakyRun, List.map_cons]
      rw [forward_eq_leaky cfg st inp none ν hfz hgood]
      cases h : leakyForward cfg st inp none with
      | ok ret st' =>
        dsimp only
        rw [ih st']
      | err e st' => dsimp only
  refine ⟨hrun st seq, ?_⟩
  rw [hrun st seq]
  exact leakyRun_threshold cfg st (seq.map Prod.fst)

/-- A concrete two-step input sequence with a nonzero noise oracle. -/
def seqW : List (List ℚ × (ℕ → ℚ)) := [([2], fun _ => 1), ([2], fun _ => 1)]

/-- Witness for C1's amended theorem at a concrete two-step sequence. -/
theorem funkiness_zero_refines_leaky_witness :
    cfgA.funkiness = 0 ∧
    ¬(cfgA.inhibition = true ∧ cfgA.reset_delay = false ∧
      cfgA.reset_mechanism = ResetMechanism.subtract) ∧
    (funkyRun cfgA stA seqW = leakyRun cfgA stA (seqW.map Prod.fst) ∧
      (funkyRun cfgA stA seqW).2.threshold = stA.threshold) :=
  ⟨rfl, by decide, funkiness_zero_refines_leaky cfgA stA rfl (by decide) seqW⟩

/-- C1 counterexample: with `funkiness = 0`, `inhibition = True`,
`reset_delay = False` and the subtract mechanism, the Funky neuron's run
aborts with `UnboundLocalError` on the very first step, so its output
sequence differs from the base leaky neuron's on the same inputs. -/
theorem funkiness_zero_not_leaky_under_inhibition_immediate :
    funkyRun cfgBad stA [([2], fun _ => 0)] ≠
      leakyRun cfgBad stA [[2]] := by decide

/-- C8: with `inhibition = True`, `reset_delay = False` and reset
mechanism `"subtract"`, every forward call raises `UnboundLocalError`,
because `threshold_before_spike` is assigned only in the non-inhibition
branch but read by the immediate-reset compensation step. -/
theorem inhibition_immediate_subtract_unbound (cfg : FunkyConfig)
    (st : FunkyState) (input_ : List ℚ) (ν : ℕ → ℚ)
    (hi : cfg.inhibition = true) (hd : cfg.reset_delay = false)
    (hm : cfg.reset_mechanism = ResetMechanism.subtract) :
    ∃ st', forward cfg st input_ none ν =
      .err FunkyError.unboundLocal st' := by
  refine ⟨preSpike cfg st input_, ?_⟩
  unfold forward
  dsimp only
  rw [if_neg (by simp)]
  rw [fireStep_inhibition _ _ hi]
  dsimp only
  unfold postFire
  rw [if_neg (by simp [hd])]
  dsimp only
  rw [hm]
  rfl

/-- Witness for C8 at a concrete configuration and input. -/
theorem inhibition_immediate_subtract_unbound_witness :
    cfgBad.inhibition = true ∧ cfgBad.reset_delay = false ∧
    cfgBad.reset_mechanism = ResetMechanism.subtract ∧
    ∃ st', forward cfgBad stA [0] none (fun _ => 0) =
      .err FunkyError.unboundLocal st' :=
  ⟨rfl, rfl, rfl,
    inhibition_immediate_subtract_unbound cfgBad stA [0] (fun _ => 0)
      rfl rfl rfl⟩

/-- C9: when the configuration error is raised (explicit membrane
argument with `init_hidden = True`), the internal membrane buffer has
already been overwritten by the passed tensor: the raised error carries
exactly the state with `mem` replaced. -/
theorem typeError_after_mem_overwrite (cfg : FunkyConfig) (st : FunkyState)
    (input_ : List ℚ) (m : List ℚ) (ν : ℕ → ℚ)
    (hi : cfg.init_hidden = true) :
    forward cfg st input_ (some m) ν =
      .err FunkyError.typeError { st with mem := m } := by
  unfold forward
  dsimp only
  rw [if_pos (by simp [hi])]

/-- Witness for C9 at a concrete call. -/
theorem typeError_after_mem_overwrite_witness :
    cfgH.init_hidden = true ∧
    forward cfgH stA [0] (some [7]) (fun _ => 0) =
      .err FunkyError.typeError { stA with mem := [7] } :=
  ⟨rfl, typeError_after_mem_overwrite cfgH stA [0] [7] (fun _ => 0) rfl⟩

/-- C3: a successful forward call whose returned spike tensor is entirely
zero leaves the threshold tensor unchanged — the threshold is mutated
only by a call returning at least one nonzero spike. -/
theorem zero_spikes_threshold_unchanged (cfg : FunkyConfig) (st : FunkyState)
    (input_ : List ℚ) (memArg : Option (List ℚ)) (ν : ℕ → ℚ)
    (ret : FunkyReturn) (st' : FunkyState)
    (h : forward cfg st input_ memArg ν = .ok ret st')
    (hz : ∀ x ∈ ret.spk, x = 0) :
    st'.threshold = st.threshold := by
  have key : ∀ (st1 : FunkyState),
      postFire cfg (fireStep cfg (preSpike cfg st1 input_) ν).1
          (fireStep cfg (preSpike cfg st1 input_) ν).2.1
          (fireStep cfg (preSpike cfg st1 input_) ν).2.2 = .ok ret st' →
        st'.threshold = st1.threshold := by
    intro st1 hpf
    obtain ⟨hspk, hthr, -, -⟩ := postFire_ok_inv hpf
    by_cases hi : cfg.inhibition
    · rw [fireStep_inhibition _ _ hi] at hthr
      dsimp only at hthr
      rw [preSpike_threshold] at hthr
      exact hthr
    · rw [fireStep_no_inhibition _ _ (by simpa using hi)] at hspk hthr
      dsimp only at hspk hthr
      rw [hspk] at hz
      rw [fire_state_of_no_spike hz] at hthr
      rw [preSpike_threshold] at hthr
      exact hthr
  cases memArg with
  | none =>
    unfold forward at h
    dsimp only at h
    rw [if_neg (by simp)] at h
    exact key st h
  | some m =>
    by_cases hh : cfg.init_hidden
    · unfold forward at h
      dsimp only at h
      rw [if_pos (by simp [hh])] at h
      cases h
    · unfold forward at h
      dsimp only at h
      rw [if_neg (by simp [hh])] at h
      exact key { st with mem := m } h

/-- Witness for C3 at a concrete subthreshold call. -/
theorem zero_spikes_threshold_unchanged_witness :
    forward cfgA stA [0] none (fun _ => 1) =
      .ok { spk := [0], memOut := some [0] }
        { mem := [0], threshold := [1], reset := [0] } ∧
    (∀ x ∈ ({ spk := [0], memOut := some [0] } : FunkyReturn).spk, x = 0) ∧
    ({ mem := [0], threshold := [1], reset := [0] } : FunkyState).threshold =
      stA.threshold :=
  ⟨by decide, by decide,
    zero_spikes_threshold_unchanged cfgA stA [0] none (fun _ => 1)
      { spk := [0], memOut := some [0] }
      { mem := [0], threshold := [1], reset := [0] } (by decide) (by decide)⟩

/-- Variant configuration with nonzero funkiness. -/
def cfgF : FunkyConfig := { cfgA with funkiness := 1 }

/-- Variant configuration with inhibition and nonzero funkiness. -/
def cfgI : FunkyConfig := { cfgA with inhibition := true, funkiness := 1 }

/-- C2, amended: in every non-inhibition configuration, a forward call
whose returned spike tensor has a nonzero element adds the drawn noise
tensor (elementwise `funkiness * ν i`, a normal draw of mean 0 and
standard deviation `funkiness`) to every element of the threshold
tensor, not only at spiking positions; each element changes whenever
`funkiness` and its noise sample are nonzero.  In inhibition mode the
inherited `fire_inhibition` is used instead and the threshold is never
perturbed, so the original claim's "including inhibition mode" fails. -/
theorem spike_perturbs_whole_threshold (cfg : FunkyConfig) (st : FunkyState)
    (input_ : List ℚ) (memArg : Option (List ℚ)) (ν : ℕ → ℚ)
    (ret : FunkyReturn) (st' : FunkyState)
    (hi : cfg.inhibition = false)
    (h : forward cfg st input_ memArg ν = .ok ret st')
    (hs : ∃ x ∈ ret.spk, x ≠ 0) :
    st'.threshold.length = st.threshold.length ∧
    ∀ i, i < st.threshold.length →
      st'.threshold.getD i 0 = st.threshold.getD i 0 + cfg.funkiness * ν i ∧
      (cfg.funkiness ≠ 0 → ν i ≠ 0 →
        st'.threshold.getD i 0 ≠ st.threshold.getD i 0) := by
  have key : ∀ (st1 : FunkyState), st1.threshold = st.threshold →
      postFire cfg (fireStep cfg (preSpike cfg st1 input_) ν).1
          (fireStep cfg (preSpike cfg st1 input_) ν).2.1
          (fireStep cfg (preSpike cfg st1 input_) ν).2.2 = .ok ret st' →
        st'.threshold =
          mapWithIdx (fun i t => t + cfg.funkiness * ν i) 0 st.threshold := by
    intro st1 hθ hpf
    obtain ⟨hspk, hthr, -, -⟩ := postFire_ok_inv hpf
    rw [fireStep_no_inhibition _ _ hi] at hspk hthr
    dsimp only at hspk hthr
    rw [hspk] at hs
    rw [fire_state_of_spike hs] at hthr
    dsimp only at hthr
    rw [preSpike_threshold, hθ] at hthr
    exact hthr
  have hfin : st'.threshold =
      mapWithIdx (fun i t => t + cfg.funkiness * ν i) 0 st.threshold := by
    cases memArg with
    | none =>
      unfold forward at h
      dsimp only at h
      rw [if_neg (by simp)] at h
      exact key st rfl h
    | some m =>
      by_cases hh : cfg.init_hidden
      · unfold forward at h
        dsimp only at h
        rw [if_pos (by simp [hh])] at h
        cases h
      · unfold forward at h
        dsimp only at h
        rw [if_neg (by simp [hh])] at h
        exact key { st with mem := m } rfl h
  constructor
  · rw [hfin, mapWithIdx_length]
  · intro i hi'
    have heq : st'.threshold.getD i 0 =
        st.threshold.getD i 0 + cfg.funkiness * ν i := by
      rw [hfin, getD_mapWithIdx _ _ _ _ hi']
      rw [Nat.zero_add]
    refine ⟨heq, ?_⟩
    intro hf hν habs
    rw [heq] at habs
    have : cfg.funkiness * ν i = 0 := by linarith
    exact mul_ne_zero hf hν this

/-- Witness for C2's amended theorem: one spiking step with
`funkiness = 1` moves the threshold from 1 to 2. -/
theorem spike_perturbs_whole_threshold_witness :
    cfgF.inhibition = false ∧
    forward cfgF stA [5] none (fun _ => 1) =
      .ok { spk := [1], memOut := some [5] }
        { mem := [5], threshold := [2], reset := [0] } ∧
    (∃ x ∈ ({ spk := [1], memOut := some [5] } : FunkyReturn).spk, x ≠ 0) ∧
    (({ mem := [5], threshold := [2], reset := [0] } : FunkyState).threshold.getD 0 0 =
        stA.threshold.getD 0 0 + cfgF.funkiness * 1 ∧
      ({ mem := [5], threshold := [2], reset := [0] } : FunkyState).threshold.getD 0 0 ≠
        stA.threshold.getD 0 0) :=
  ⟨rfl, by decide, by decide,
    ((spike_perturbs_whole_threshold cfgF stA [5] none (fun _ => 1)
          { spk := [1], memOut := some [5] }
          { mem := [5], threshold := [2], reset := [0] }
          rfl (by decide) (by decide)).2 0 (by decide)).1,
    ((spike_perturbs_whole_threshold cfgF stA [5] none (fun _ => 1)
          { spk := [1], memOut := some [5] }
          { mem := [5], threshold := [2], reset := [0] }
          rfl (by decide) (by decide)).2 0 (by decide)).2
      (by decide) (by decide)⟩

/-- C2 counterexample: in inhibition mode the forward call returns a
nonzero spike, `funkiness = 1`, the noise sample is nonzero, and yet the
threshold tensor is exactly unchanged — the spike path goes through the
inherited `fire_inhibition`, which never perturbs the threshold. -/
theorem inhibition_spike_threshold_frozen :
    forward cfgI stA [5] none (fun _ => 1) =
      .ok { spk := [1], memOut := some [5] }
        { mem := [5], threshold := [1], reset := [0] } ∧
    stA.threshold = [1] ∧ cfgI.funkiness ≠ 0 ∧ (1 : ℚ) ≠ 0 := by decide

/-- C6, amended: passing an explicit membrane tensor while
`init_hidden = True` raises the configuration error (with the membrane
already overwritten); apart from that error and the unbound-local error
of the `inhibition = True`, `reset_delay = False`, subtract
configuration, every call succeeds — including calls whose membrane
argument's shape differs from the input's. -/
theorem config_error_and_success (cfg : FunkyConfig) (st : FunkyState)
    (input_ : List ℚ) (ν : ℕ → ℚ) :
    (cfg.init_hidden = true → ∀ m, forward cfg st input_ (some m) ν =
      .err FunkyError.typeError { st with mem := m }) ∧
    (∀ memArg, (cfg.init_hidden = false ∨ memArg = none) →
      ¬(cfg.inhibition = true ∧ cfg.reset_delay = false ∧
        cfg.reset_mechanism = ResetMechanism.subtract) →
      ∃ ret st', forward cfg st input_ memArg ν = .ok ret st') := by
  constructor
  · intro hh m
    unfold forward
    dsimp only
    rw [if_pos (by simp [hh])]
  · intro memArg h1 h2
    exact forward_isOk cfg st input_ memArg ν h1 h2

/-- Witness for C6's amended theorem: the configuration error at a
concrete call, and a successful call whose membrane argument has the
wrong shape. -/
theorem config_error_and_success_witness :
    forward cfgH stA [0] (some [7]) (fun _ => 0) =
      .err FunkyError.typeError { stA with mem := [7] } ∧
    ∃ ret st', forward cfgA stA [0] (some [9, 9]) (fun _ => 0) =
      .ok ret st' :=
  ⟨(config_error_and_success cfgH stA [0] (fun _ => 0)).1 rfl [7],
    (config_error_and_success cfgA stA [0] (fun _ => 0)).2 (some [9, 9])
      (Or.inl rfl) (by decide)⟩

/-- C6 counterexample: a forward call with no membrane argument (so not
the configuration error's trigger) that still raises — the
unbound-local error — refuting that the configuration error is the only
error and that every other input succeeds. -/
theorem unbound_error_without_mem_argument :
    forward cfgBad stA [0] none (fun _ => 0) =
      .err FunkyError.unboundLocal { mem := [0], threshold := [1], reset := [0] } := by
  decide

/-- Variant configuration with the reset-to-zero mechanism. -/
def cfgZ : FunkyConfig := { cfgA with reset_mechanism := .zero }

/-- A one-neuron state whose membrane has crossed the threshold. -/
def stC : FunkyState := { mem := [2], threshold := [1], reset := [] }

/-- C4: with reset mechanism `"subtract"` and `reset_delay = True`, a
forward call (no explicit membrane argument, shapes matching, no
quantization) sets the new membrane elementwise to
`β·mem + I − R·θ`, with `β` clamped to `[0,1]` and `R` the indicator of
the previous membrane exceeding the threshold; so it is `β·mem + I − θ`
exactly when `R = 1` and `β·mem + I` when `R = 0`. -/
theorem subtract_membrane_formula (cfg : FunkyConfig) (st : FunkyState)
    (input_ : List ℚ) (ν : ℕ → ℚ)
    (hm : cfg.reset_mechanism = ResetMechanism.subtract)
    (hd : cfg.reset_delay = true)
    (hq : cfg.state_quant = none)
    (hlm : st.mem.length = input_.length)
    (hlt : st.threshold.length = input_.length) :
    ∃ ret st', forward cfg st input_ none ν = .ok ret st' ∧
      ∀ i, i < input_.length →
        st'.mem.getD i 0 =
          clamp01 cfg.beta * st.mem.getD i 0 + input_.getD i 0 -
            (if st.threshold.getD i 0 < st.mem.getD i 0 then 1 else 0) *
              st.threshold.getD i 0 := by
  obtain ⟨ret, st', hok⟩ := forward_isOk cfg st input_ none ν (Or.inr rfl)
    (by rintro ⟨-, hdf, -⟩; rw [hd] at hdf; exact absurd hdf (by simp))
  refine ⟨ret, st', hok, ?_⟩
  unfold forward at hok
  dsimp only at hok
  rw [if_neg (by simp)] at hok
  obtain ⟨-, -, -, hst⟩ := postFire_ok_inv hok
  have hmem : st'.mem = (preSpike cfg st input_).mem := by
    rw [hst hd, fireStep_mem]
  rw [preSpike_mem_subtract cfg st input_ hm hq hlm] at hmem
  intro i hile
  have h1 : i < st.mem.length := by rw [hlm]; exact hile
  have h2 : i < st.threshold.length := by rw [hlt]; exact hile
  rw [hmem]
  rw [getD_zipWith _ _ _ i
      (by simp only [List.length_zipWith, List.length_map, hlm, Nat.min_self]
          exact hile)
      (by simp only [List.length_zipWith, hlm, hlt, Nat.min_self]
          exact hile)]
  rw [getD_zipWith _ _ _ i (by simp only [List.length_map]; exact h1) hile]
  rw [getD_map _ _ i h1]
  rw [getD_zipWith _ _ _ i
      (by simp only [List.length_zipWith, hlm, hlt, Nat.min_self]; exact hile)
      h2]
  rw [getD_zipWith _ _ _ i h1 h2]
  simp only [heaviside, sub_pos]

/-- Witness for C4 at a concrete call: one neuron below threshold. -/
theorem subtract_membrane_formula_witness :
    cfgA.reset_mechanism = ResetMechanism.subtract ∧
    cfgA.reset_delay = true ∧ cfgA.state_quant = none ∧
    stA.mem.length = ([2] : List ℚ).length ∧
    stA.threshold.length = ([2] : List ℚ).length ∧
    ∃ ret st', forward cfgA stA [2] none (fun _ => 0) = .ok ret st' ∧
      ∀ i, i < ([2] : List ℚ).length →
        st'.mem.getD i 0 =
          clamp01 cfgA.beta * stA.mem.getD i 0 + ([2] : List ℚ).getD i 0 -
            (if stA.threshold.getD i 0 < stA.mem.getD i 0 then 1 else 0) *
              stA.threshold.getD i 0 :=
  ⟨rfl, rfl, rfl, rfl, rfl,
    subtract_membrane_formula cfgA stA [2] (fun _ => 0) rfl rfl rfl rfl rfl⟩

/-- C5: with reset mechanism `"zero"`, a forward call first zeroes the
membrane wherever the reset indicator is 1 (`mem ← (1 − R)·mem`) and
then computes `β·mem + I`; hence an element whose previous membrane
value crossed threshold contributes exactly zero — its new membrane is
the bare input. -/
theorem zero_reset_membrane_formula (cfg : FunkyConfig) (st : FunkyState)
    (input_ : List ℚ) (ν : ℕ → ℚ)
    (hm : cfg.reset_mechanism = ResetMechanism.zero)
    (hd : cfg.reset_delay = true)
    (hq : cfg.state_quant = none)
    (hlm : st.mem.length = input_.length)
    (hlt : st.threshold.length = input_.length) :
    ∃ ret st', forward cfg st input_ none ν = .ok ret st' ∧
      ∀ i, i < input_.length →
        st'.mem.getD i 0 =
          clamp01 cfg.beta *
            ((1 - (if st.threshold.getD i 0 < st.mem.getD i 0 then 1 else 0)) *
              st.mem.getD i 0) + input_.getD i 0 ∧
        (st.threshold.getD i 0 < st.mem.getD i 0 →
          st'.mem.getD i 0 = input_.getD i 0) := by
  obtain ⟨ret, st', hok⟩ := forward_isOk cfg st input_ none ν (Or.inr rfl)
    (by rintro ⟨-, -, hmf⟩; rw [hm] at hmf; simp at hmf)
  refine ⟨ret, st', hok, ?_⟩
  unfold forward at hok
  dsimp only at hok
  rw [if_neg (by simp)] at hok
  obtain ⟨-, -, -, hst⟩ := postFire_ok_inv hok
  have hmem : st'.mem = (preSpike cfg st input_).mem := by
    rw [hst hd, fireStep_mem]
  rw [preSpike_mem_zero cfg st input_ hm hq hlm] at hmem
  intro i hile
  have h1 : i < st.mem.length := by rw [hlm]; exact hile
  have h2 : i < st.threshold.length := by rw [hlt]; exact hile
  have hval : st'.mem.getD i 0 =
      clamp01 cfg.beta *
        ((1 - (if st.threshold.getD i 0 < st.mem.getD i 0 then 1 else 0)) *
          st.mem.getD i 0) + input_.getD i 0 := by
    rw [hmem]
    rw [getD_zipWith _ _ _ i
        (by simp only [List.length_map, List.length_zipWith, hlm, hlt,
              Nat.min_self]
            exact hile)
        hile]
    rw [getD_map _ _ i
        (by simp only [List.length_zipWith, hlm, hlt, Nat.min_self]
            exact hile)]
    rw [getD_zipWith _ _ _ i
        (by simp only [List.length_zipWith, hlm, hlt, Nat.min_self]; exact hile)
        h1]
    rw [getD_zipWith _ _ _ i h1 h2]
    simp only [heaviside, sub_pos]
  refine ⟨hval, ?_⟩
  intro hcross
  rw [hval, if_pos hcross]
  ring

/-- Witness for C5 at a concrete call: one neuron that crossed threshold
(membrane 2 over threshold 1), whose next membrane is the bare input. -/
theorem zero_reset_membrane_formula_witness :
    cfgZ.reset_mechanism = ResetMechanism.zero ∧
    cfgZ.reset_delay = true ∧ cfgZ.state_quant = none ∧
    stC.mem.length = ([3] : List ℚ).length ∧
    stC.threshold.length = ([3] : List ℚ).length ∧
    ∃ ret st', forward cfgZ stC [3] none (fun _ => 0) = .ok ret st' ∧
      ∀ i, i < ([3] : List ℚ).length →
        st'.mem.getD i 0 =
          clamp01 cfgZ.beta *
            ((1 - (if stC.threshold.getD i 0 < stC.mem.getD i 0 then 1 else 0)) *
              stC.mem.getD i 0) + ([3] : List ℚ).getD i 0 ∧
        (stC.threshold.getD i 0 < stC.mem.getD i 0 →
          st'.mem.getD i 0 = ([3] : List ℚ).getD i 0) :=
  ⟨rfl, rfl, rfl, rfl, rfl,
    zero_reset_membrane_formula cfgZ stC [3] (fun _ => 0) rfl rfl rfl rfl rfl⟩

/-- A fresh-looking state whose membrane still has the empty shape given
by `_init_mem`, mismatching any nonempty input. -/
def stMis : FunkyState := { mem := [], threshold := [1], reset := [] }

/-- C7: after every successful forward call the stored membrane's shape
equals the input's shape; and a call that starts with a mismatched
stored membrane behaves exactly as if the membrane had been a zero
tensor of the input's shape — it is silently reinitialized, not an
error. -/
theorem mem_shape_matches_input (cfg : FunkyConfig) (st : FunkyState)
    (input_ : List ℚ) (ν : ℕ → ℚ)
    (hlt : st.threshold.length = input_.length) :
    (∀ (memArg : Option (List ℚ)) (ret : FunkyReturn) (st' : FunkyState),
        forward cfg st input_ memArg ν = .ok ret st' →
        st'.mem.length = input_.length) ∧
    (st.mem.length ≠ input_.length →
      forward cfg st input_ none ν =
        forward cfg { st with mem := List.replicate input_.length 0 } input_
          none ν) := by
  have key : ∀ (st1 : FunkyState), st1.threshold = st.threshold →
      ∀ (ret : FunkyReturn) (st' : FunkyState),
      postFire cfg (fireStep cfg (preSpike cfg st1 input_) ν).1
          (fireStep cfg (preSpike cfg st1 input_) ν).2.1
          (fireStep cfg (preSpike cfg st1 input_) ν).2.2 = .ok ret st' →
        st'.mem.length = input_.length := by
    intro st1 hθ1 ret st' hpf
    have hθ1' : st1.threshold.length = input_.length := by
      rw [hθ1]; exact hlt
    obtain ⟨hm5, hr5⟩ := preSpike_lengths cfg st1 input_ hθ1'
    have hθ5 : (preSpike cfg st1 input_).threshold.length = input_.length := by
      rw [preSpike_threshold]; exact hθ1'
    by_cases hi : cfg.inhibition
    · rw [fireStep_inhibition _ _ hi] at hpf
      dsimp only at hpf
      refine postFire_ok_mem_length input_.length hpf ?_ hm5 hr5 hθ5
      rw [fire_inhibition_length, hm5, hθ5]
      simp
    · rw [fireStep_no_inhibition _ _ (by simpa using hi)] at hpf
      dsimp only at hpf
      refine postFire_ok_mem_length input_.length hpf ?_ ?_ ?_ ?_
      · rw [fire_spk_length, hm5, hθ5]
        simp
      · rw [fire_mem_eq]
        exact hm5
      · rw [fire_reset_eq]
        exact hr5
      · rw [fire_threshold_length]
        exact hθ5
  constructor
  · intro memArg ret st' h
    cases memArg with
    | none =>
      unfold forward at h
      dsimp only at h
      rw [if_neg (by simp)] at h
      exact key st rfl ret st' h
    | some m =>
      by_cases hh : cfg.init_hidden
      · unfold forward at h
        dsimp only at h
        rw [if_pos (by simp [hh])] at h
        cases h
      · unfold forward at h
        dsimp only at h
        rw [if_neg (by simp [hh])] at h
        exact key { st with mem := m } rfl ret st' h
  · intro hne
    unfold forward
    dsimp only
    rw [if_neg (by simp), if_neg (by simp)]
    rw [preSpike_reinit cfg st input_ hne]

/-- Witness for C7 at a concrete call starting from the empty membrane
shape of a fresh neuron. -/
theorem mem_shape_matches_input_witness :
    stMis.threshold.length = ([4] : List ℚ).length ∧
    stMis.mem.length ≠ ([4] : List ℚ).length ∧
    ({ mem := [4], threshold := [1], reset := [0] } : FunkyState).mem.length =
      ([4] : List ℚ).length ∧
    forward cfgA stMis [4] none (fun _ => 0) =
      forward cfgA { stMis with mem := List.replicate ([4] : List ℚ).length 0 }
        [4] none (fun _ => 0) :=
  ⟨rfl, by decide,
    (mem_shape_matches_input cfgA stMis [4] (fun _ => 0) rfl).1 none
      { spk := [1], memOut := some [4] }
      { mem := [4], threshold := [1], reset := [0] } (by decide),
    (mem_shape_matches_input cfgA stMis [4] (fun _ => 0) rfl).2 (by decide)⟩

lemma heaviside_cases (x : ℚ) : heaviside x = 0 ∨ heaviside x = 1 := by
  unfold heaviside
  split
  · exact Or.inr rfl
  · exact Or.inl rfl

lemma postFire_immediate_sub (cfg : FunkyConfig) (spk : List ℚ)
    (st : FunkyState)
    (hd : cfg.reset_delay = false)
    (hm : cfg.reset_mechanism = ResetMechanism.subtract) :
    postFire cfg spk st true =
      mkReturn cfg spk
        { st with mem :=
            (List.zipWith (· - ·) st.mem
              (List.zipWith (· * ·)
                (List.zipWith (· - ·)
                  (spk.map (· / cfg.graded_spikes_factor)) st.reset)
                st.threshold)) } := by
  unfold postFire
  rw [if_neg (by simp [hd])]
  dsimp only
  rw [hm]
  rfl

lemma leakyFire_no_quant (cfg : FunkyConfig) (st : FunkyState) (mem : List ℚ)
    (hq : cfg.state_quant = none) :
    leakyFire cfg st mem =
      ((List.zipWith (· - ·) mem st.threshold).map heaviside).map
        (· * cfg.graded_spikes_factor) := by
  unfold leakyFire
  dsimp only
  rw [hq]
  rfl

/-- Variant configuration with immediate reset (no reset delay) and
nonzero funkiness. -/
def cfgNF : FunkyConfig := { cfgA with reset_delay := false, funkiness := 1 }

/-- C10, amended: with `reset_delay = False`, reset mechanism
`"subtract"` and no inhibition, the compensation divides the returned
spike tensor by the graded-spikes factor to recover the binary indicator
`S` and subtracts `(S − R)` times the value read through
`threshold_before_spike`; but that local name aliases the threshold
buffer, which `fire` perturbs in place, so the value read is the
post-perturbation threshold: the membrane after the call is elementwise
`β·mem + I − R·θ_pre − (S − R)·θ_post`.  Only when the threshold was not
perturbed during the call — e.g. with `funkiness = 0`, under which the
threshold is unchanged — does this collapse to `β·mem + I − S·θ_pre`. -/
theorem immediate_subtract_membrane_formula (cfg : FunkyConfig)
    (st : FunkyState) (input_ : List ℚ) (ν : ℕ → ℚ)
    (hi : cfg.inhibition = false) (hd : cfg.reset_delay = false)
    (hm : cfg.reset_mechanism = ResetMechanism.subtract)
    (hq : cfg.state_quant = none)
    (hg : cfg.graded_spikes_factor ≠ 0)
    (hlm : st.mem.length = input_.length)
    (hlt : st.threshold.length = input_.length) :
    ∃ ret st', forward cfg st input_ none ν = .ok ret st' ∧
      ∀ i, i < input_.length →
        (ret.spk.getD i 0 / cfg.graded_spikes_factor = 0 ∨
          ret.spk.getD i 0 / cfg.graded_spikes_factor = 1) ∧
        st'.mem.getD i 0 =
          clamp01 cfg.beta * st.mem.getD i 0 + input_.getD i 0 -
            (if st.threshold.getD i 0 < st.mem.getD i 0 then 1 else 0) *
              st.threshold.getD i 0 -
            (ret.spk.getD i 0 / cfg.graded_spikes_factor -
              (if st.threshold.getD i 0 < st.mem.getD i 0 then 1 else 0)) *
              st'.threshold.getD i 0 ∧
        (cfg.funkiness = 0 →
          st'.threshold.getD i 0 = st.threshold.getD i 0) := by
  unfold forward
  dsimp only
  rw [if_neg (by simp)]
  rw [fireStep_no_inhibition _ _ hi]
  dsimp only
  rw [postFire_immediate_sub _ _ _ hd hm]
  rw [mkReturn_eq]
  refine ⟨_, _, rfl, ?_⟩
  intro i hile
  dsimp only
  rw [fire_mem_eq, fire_reset_eq, fire_spk_eq]
  rw [leakyFire_no_quant _ _ _ hq]
  rw [preSpike_threshold]
  rw [preSpike_reset_eq cfg st input_ hlm]
  rw [preSpike_mem_subtract cfg st input_ hm hq hlm]
  have h1 : i < st.mem.length := by rw [hlm]; exact hile
  have h2 : i < st.threshold.length := by rw [hlt]; exact hile
  refine ⟨?_, ?_, ?_⟩
  · simp only [getD_map, getD_zipWith, List.length_zipWith, List.length_map,
      hlm, hlt, Nat.min_self, hile, h1, h2]
    simp only [mul_div_cancel_right₀ _ hg]
    exact heaviside_cases _
  · simp only [getD_map, getD_zipWith, List.length_zipWith, List.length_map,
      fire_threshold_length, preSpike_threshold,
      hlm, hlt, Nat.min_self, hile, h1, h2]
    simp only [mul_div_cancel_right₀ _ hg]
    simp only [heaviside, sub_pos]
  · intro hfz
    rw [fire_funkiness_zero _ _ _ hfz]
    dsimp only
    rw [preSpike_threshold]

/-- C10 counterexample: with `funkiness = 1`, immediate reset and the
subtract mechanism, a spiking call (β = ½, θ_pre = 1, mem = 0, input 5,
noise sample 1) returns membrane 3 — the compensation multiplied by the
perturbed threshold 2 — while the claimed formula `β·mem + I − S·θ_pre`
evaluates to 4. -/
theorem immediate_subtract_not_pre_threshold :
    forward cfgNF stA [5] none (fun _ => 1) =
      .ok { spk := [1], memOut := some [3] }
        { mem := [3], threshold := [2], reset := [0] } ∧
    clamp01 cfgNF.beta * stA.mem.getD 0 0 + ([5] : List ℚ).getD 0 0 -
      (([1] : List ℚ).getD 0 0 / cfgNF.graded_spikes_factor) *
        stA.threshold.getD 0 0 = 4 ∧
    (3 : ℚ) ≠ 4 := by decide

/-- Witness for C10's amended theorem at a concrete spiking call with
immediate reset and a perturbed threshold. -/
theorem immediate_subtract_membrane_formula_witness :
    cfgNF.inhibition = false ∧ cfgNF.reset_delay = false ∧
    cfgNF.reset_mechanism = ResetMechanism.subtract ∧
    cfgNF.state_quant = none ∧ cfgNF.graded_spikes_factor ≠ 0 ∧
    stA.mem.length = ([5] : List ℚ).length ∧
    stA.threshold.length = ([5] : List ℚ).length ∧
    ∃ ret st', forward cfgNF stA [5] none (fun _ => 1) = .ok ret st' ∧
      ∀ i, i < ([5] : List ℚ).length →
        (ret.spk.getD i 0 / cfgNF.graded_spikes_factor = 0 ∨
          ret.spk.getD i 0 / cfgNF.graded_spikes_factor = 1) ∧
        st'.mem.getD i 0 =
          clamp01 cfgNF.beta * stA.mem.getD i 0 + ([5] : List ℚ).getD i 0 -
            (if stA.threshold.getD i 0 < stA.mem.getD i 0 then 1 else 0) *
              stA.threshold.getD i 0 -
            (ret.spk.getD i 0 / cfgNF.graded_spikes_factor -
              (if stA.threshold.getD i 0 < stA.mem.getD i 0 then 1 else 0)) *
              st'.threshold.getD i 0 ∧
        (cfgNF.funkiness = 0 →
          st'.threshold.getD i 0 = stA.threshold.getD i 0) :=
  ⟨rfl, rfl, rfl, rfl, by decide, rfl, rfl,
    immediate_subtract_membrane_formula cfgNF stA [5] (fun _ => 1)
      rfl rfl rfl rfl (by decide) rfl rfl⟩

end Funky
